import Mathlib

/-
Shallow embedding of the grouping-and-placement engine of imgsetsortr
(src/imgsetsortr.0-4-0.py). Timestamps are modelled as rational numbers of
seconds; the timestamp resolver, the place resolver, the network geocoder
and the file system are modelled as explicit oracles, so every definition
is executable on concrete inputs.
-/

namespace ImgSetSortr

/-- Timestamp of a path under the resolver oracle, defaulting to zero when
the oracle yields nothing. The oracle stands for get_image_timestamp viewed
as a function from a path to an optional instant in seconds. -/
def tsv (getTs : String → Option ℚ) (p : String) : ℚ :=
  (getTs p).getD 0

/-- The grouping scan of process_images_cli (lines 590 to 615) and of task
(lines 1162 to 1186): an item with no timestamp is skipped; an item within
the threshold of the previously classified item extends the current group;
otherwise the current group is emitted when it has at least 5 members and a
new group starts with the item; the final group is emitted under the same
size condition. -/
def scanRuns (getTs : String → Option ℚ) (t : ℚ) :
    List String → List String → ℚ → List (List String)
  | [], cur, _ => if 5 ≤ cur.length then [cur] else []
  | p :: rest, cur, last =>
    match getTs p with
    | none => scanRuns getTs t rest cur last
    | some ts =>
      if cur = [] then scanRuns getTs t rest [p] ts
      else if ts - last ≤ t then scanRuns getTs t rest (cur ++ [p]) ts
      else if 5 ≤ cur.length then cur :: scanRuns getTs t rest [p] ts
      else scanRuns getTs t rest [p] ts

/-- The same scan with every closed group emitted regardless of size; it
exposes the partition underlying the minimum size filter. -/
def scanBlocks (getTs : String → Option ℚ) (t : ℚ) :
    List String → List String → ℚ → List (List String)
  | [], cur, _ => if cur = [] then [] else [cur]
  | p :: rest, cur, last =>
    match getTs p with
    | none => scanBlocks getTs t rest cur last
    | some ts =>
      if cur = [] then scanBlocks getTs t rest [p] ts
      else if ts - last ≤ t then scanBlocks getTs t rest (cur ++ [p]) ts
      else cur :: scanBlocks getTs t rest [p] ts

/-- The Run Grouper applied to an already sorted list of image files. -/
def formGroups (getTs : String → Option ℚ) (t : ℚ) (image_files : List String) :
    List (List String) :=
  scanRuns getTs t image_files [] 0

/-- Lexicographic comparison of character lists by code point, the order
Python uses on strings. -/
def lexLe : List Char → List Char → Bool
  | [], _ => true
  | _ :: _, [] => false
  | a :: as, b :: bs => if a = b then lexLe as bs else decide (a.toNat < b.toNat)

/-- The component after the final slash, accumulator style. -/
def lastComp (acc : List Char) : List Char → List Char
  | [] => acc.reverse
  | c :: cs => if c = '/' then lastComp [] cs else lastComp (c :: acc) cs

/-- Model of os.path.basename for slash separated paths. -/
def basename (p : String) : String :=
  String.mk (lastComp [] p.data)

/-- First component of the sort key used by image_files.sort: the resolved
timestamp, or the sentinel datetime.max, modelled as top, when resolution
fails. -/
def tsKey (getTs : String → Option ℚ) (p : String) : WithTop ℚ :=
  match getTs p with
  | some q => (q : WithTop ℚ)
  | none => ⊤

/-- The sort order of image_files.sort in process_images_cli (lines 584 to
585) and in task (lines 1156 to 1157): by resolved timestamp, tie broken by
the basename of the path. -/
def sortKeyLE (getTs : String → Option ℚ) (a b : String) : Prop :=
  tsKey getTs a < tsKey getTs b ∨
    (tsKey getTs a = tsKey getTs b ∧ lexLe (basename a).data (basename b).data = true)

instance (getTs : String → Option ℚ) : DecidableRel (sortKeyLE getTs) := by
  intro a b
  unfold sortKeyLE
  infer_instance

/-- The sort of the image list. Python list.sort is a stable sort and is
modelled by insertion sort, which is stable for the same order. -/
def sortImages (getTs : String → Option ℚ) (l : List String) : List String :=
  List.insertionSort (sortKeyLE getTs) l

/-- The sort order as the specification words it: by timestamp with the full
path, not its basename, as the tie break. Kept for comparison with the
order the code implements. -/
def sortKeySpecLE (getTs : String → Option ℚ) (a b : String) : Prop :=
  tsKey getTs a < tsKey getTs b ∨
    (tsKey getTs a = tsKey getTs b ∧ lexLe a.data b.data = true)

instance (getTs : String → Option ℚ) : DecidableRel (sortKeySpecLE getTs) := by
  intro a b
  unfold sortKeySpecLE
  infer_instance

/-- The sort of the image list under the order the specification states. -/
def sortImagesSpec (getTs : String → Option ℚ) (l : List String) : List String :=
  List.insertionSort (sortKeySpecLE getTs) l

/-- The full key the implemented sort orders by, as one value. -/
def sortKey (getTs : String → Option ℚ) (p : String) : WithTop ℚ × List Char :=
  (tsKey getTs p, (basename p).data)

/-- The grouping pipeline of the batch: sort the files, then scan them into
groups. -/
def groupPipeline (getTs : String → Option ℚ) (t : ℚ) (l : List String) :
    List (List String) :=
  formGroups getTs t (sortImages getTs l)

/-- update_thresholds (lines 952 to 963): a value that parses is clamped to
the floor of 0.01 seconds; a value that fails to parse keeps the previous
threshold. The optional argument models the outcome of float on the entry
text. -/
def update_thresholds (prev : ℚ) (entry : Option ℚ) : ℚ :=
  match entry with
  | some val => max (1 / 100) val
  | none => prev

/-- process_images_cli (lines 529 to 530): the CLI increment is assigned to
the global threshold directly. -/
def cliSetThreshold (increment : ℚ) : ℚ :=
  increment

/-- A parsed EXIF date: its year together with the instant it denotes. -/
structure ExifDate where
  year : ℤ
  instant : ℚ
deriving DecidableEq

/-- Observable metadata of one file: whether opening the file and reading its
EXIF tags completes, the DateTimeOriginal tag when present, and the file
modification time when obtainable. -/
structure FileMeta where
  exifOk : Bool
  dateTag : Option String
  mtime : Option ℚ

/-- get_image_timestamp (lines 290 to 332). The strptime oracle models
parsing with the fixed pattern and currentYear models the current year. An
exception while opening the file or reading its tags reaches the outer
handler and yields none without consulting the modification time; a parse
failure or an out of range year falls back to the modification time, whose
own failure also reaches the outer handler and yields none. -/
def get_image_timestamp (strptime : String → Option ExifDate) (currentYear : ℤ)
    (f : FileMeta) : Option ℚ :=
  if f.exifOk then
    match f.dateTag with
    | some s =>
      match strptime s with
      | some dt =>
        if dt.year < 2000 ∨ currentYear + 1 < dt.year then f.mtime
        else some dt.instant
      | none => f.mtime
    | none => f.mtime
  else none

/-- The resolver as the specification words it: every failure of the
metadata tier, the read included, falls through to the modification time,
and only total failure yields absence. Kept for comparison with
get_image_timestamp. -/
def resolverSpec (strptime : String → Option ExifDate) (currentYear : ℤ)
    (f : FileMeta) : Option ℚ :=
  match (if f.exifOk then f.dateTag else none) with
  | some s =>
    match strptime s with
    | some dt =>
      if dt.year < 2000 ∨ currentYear + 1 < dt.year then f.mtime
      else some dt.instant
    | none => f.mtime
  | none => f.mtime

/-- Word characters, whitespace and hyphen survive the character strip of
normalize_location; word characters are modelled over ASCII. -/
def wordChar (c : Char) : Bool :=
  c.isAlphanum || c = '_' || c = '-' || c.isWhitespace

/-- Whitespace stripped from both ends. -/
def stripWs (cs : List Char) : List Char :=
  ((cs.dropWhile Char.isWhitespace).reverse.dropWhile Char.isWhitespace).reverse

/-- Split on whitespace runs, dropping empty words, accumulator style. -/
def splitWsAux (acc : List Char) : List Char → List (List Char)
  | [] => if acc = [] then [] else [acc.reverse]
  | c :: cs =>
    if c.isWhitespace then
      if acc = [] then splitWsAux [] cs else acc.reverse :: splitWsAux [] cs
    else splitWsAux (c :: acc) cs

/-- Words joined by single hyphens. -/
def hyphenJoin : List (List Char) → List Char
  | [] => []
  | [w] => w
  | w :: ws => w ++ '-' :: hyphenJoin ws

/-- normalize_location (lines 377 to 385): strip characters that are neither
word characters nor whitespace nor hyphen, strip surrounding whitespace,
split on whitespace, lowercase each word and join with hyphens; an empty
result is the sentinel unknown. -/
def normalize_location (location : String) : String :=
  let cleaned := stripWs (location.data.filter wordChar)
  let joined := hyphenJoin ((splitWsAux [] cleaned).map (fun w => w.map Char.toLower))
  if joined = [] then "unknown" else String.mk joined

/-- A geocode cache key: a latitude and longitude pair already rounded to six
decimal places. -/
abbrev GeoKey := ℚ × ℚ

/-- Lookup in the geocode cache, an association list from rounded coordinate
pairs to the raw place string the geocoder returned. -/
def cacheFind : List (GeoKey × String) → GeoKey → Option String
  | [], _ => none
  | (k2, v) :: rest, k => if k2 = k then some v else cacheFind rest k

/-- State of the geocoding tier: the process lifetime cache and the number of
network calls made so far. -/
structure GeoState where
  cache : List (GeoKey × String)
  calls : Nat
deriving DecidableEq

/-- The GPS tier of get_place_from_exif_or_xmp (lines 444 to 472). The net
oracle gives the outcome of the nth reverse geocode call: some place when
the call returns an address with a populated field, none when it times out,
is unavailable, or carries no usable address. A cache hit returns the cached
place normalized without a network call; a successful call stores the raw
place in the cache; a failed call stores nothing and the tier falls through,
modelled as none. -/
def gpsLookup (net : Nat → Option String) (st : GeoState) (k : GeoKey) :
    Option String × GeoState :=
  match cacheFind st.cache k with
  | some place => (some (normalize_location place), st)
  | none =>
    match net st.calls with
    | some place =>
      (some (normalize_location place), ⟨(k, place) :: st.cache, st.calls + 1⟩)
    | none => (none, ⟨st.cache, st.calls + 1⟩)

/-- Resolution of a batch of rounded coordinate pairs through the GPS tier in
sequence, returning each label and the final state. -/
def processKeys (net : Nat → Option String) (st : GeoState) :
    List GeoKey → List (Option String) × GeoState
  | [] => ([], st)
  | k :: ks =>
    let r := gpsLookup net st k
    let rs := processKeys net r.2 ks
    (r.1 :: rs.1, rs.2)

/-- The two pause duration accumulators named total_paused_time. The one in
main (line 1274) is the accumulator pause_or_continue updates; task defines
its own of the same name (line 1133), and that shadowing local is the one
its progress_callback reads. -/
structure PauseClocks where
  taskPaused : ℚ
  mainPaused : ℚ
deriving DecidableEq

/-- The accumulators as task initializes them (lines 1132 to 1134). -/
def taskInitClocks : PauseClocks :=
  ⟨0, 0⟩

/-- Effect of one completed pause of d seconds, ended by pause_or_continue
(lines 1276 to 1289): the accumulator in main grows by d, the local one in
task is untouched. -/
def resumeAfterPause (st : PauseClocks) (d : ℚ) : PauseClocks :=
  ⟨st.taskPaused, st.mainPaused + d⟩

/-- Elapsed seconds as progress_callback reports them (line 1138): wall clock
time since start minus the accumulator local to task, floored at zero. -/
def reportedElapsed (st : PauseClocks) (now start : ℚ) : ℚ :=
  max 0 (now - start - st.taskPaused)

/-- Remaining time estimate of progress_callback (lines 1139 to 1143): the
sentinel value -1 stands for unknown and is rendered as dashes by
update_progress. -/
def remainingEstimate (elapsed value : ℚ) : ℚ :=
  if 0 < value then elapsed / value * (100 - value) else -1

/-- Worker events: classifying one item, polling the pause flag once, and
moving one group. -/
inductive WorkerEv where
  | classifyItem (p : String)
  | pollPause
  | moveGroup (idx : Nat)
deriving DecidableEq

/-- Event trace of the classification loop of task (lines 1162 to 1182): each
item with a timestamp is classified and then the pause flag is polled once;
an item without a timestamp is skipped by the continue, poll included. -/
def classifyTrace (getTs : String → Option ℚ) (items : List String) : List WorkerEv :=
  items.flatMap fun p =>
    match getTs p with
    | none => []
    | some _ => [WorkerEv.classifyItem p, WorkerEv.pollPause]

/-- Event trace of the relocation loop of task (lines 1189 to 1214),
accumulator style over the one based group index: one move event per
nonempty group and no poll events. -/
def relocTraceAux : Nat → List (List String) → List WorkerEv
  | _, [] => []
  | idx, g :: rest =>
    (if g = [] then [] else [WorkerEv.moveGroup idx]) ++ relocTraceAux (idx + 1) rest

/-- Event trace of the relocation loop from the first group index. -/
def relocTrace (groups : List (List String)) : List WorkerEv :=
  relocTraceAux 1 groups

/-- Recognizer of poll events. -/
def isPoll : WorkerEv → Bool
  | WorkerEv.pollPause => true
  | _ => false

/-- Number of pause flag polls in a trace. -/
def pollCount (tr : List WorkerEv) : Nat :=
  (tr.filter isPoll).length

/-- Collaborators of the relocation loop: the timestamp resolver, the place
resolver, the time formatter of strftime, directory creation success by
name, and per file move success. -/
structure RelocEnv where
  getTs : String → Option ℚ
  place : String → String
  fmtTime : ℚ → String
  mkdirOk : String → Bool
  moveOk : String → Bool

/-- The group index under the two digit format of line 627. -/
def twoDigits (n : Nat) : String :=
  if n < 10 then "0" ++ toString n else toString n

/-- Destination folder name (line 627): place of the earliest item, formatted
timestamp of the earliest item, two digit group index and member count,
joined by underscores. -/
def groupFolderName (env : RelocEnv) (idx : Nat) (g : List String) (t : ℚ) : String :=
  env.place g.headI ++ "_" ++ env.fmtTime t ++ "_" ++ twoDigits idx ++ "_" ++
    toString g.length

/-- The relocation loop of task (lines 1189 to 1214) and of process_images_cli
(lines 618 to 643). An empty group is skipped by the first continue. For a
group whose earliest member resolves to a timestamp, the count variable is
assigned, the destination directory is created, and on creation success each
file is attempted individually with a failed move skipped; on creation
failure the continue skips the group. When the earliest member does not
resolve, the guarded branch is skipped and the debug log at the foot of the
loop evaluates the count variable, which raises when no earlier iteration
assigned it; the raise aborts the loop. The ok result lists the files moved
per group. -/
def relocLoop (env : RelocEnv) : Nat → Option Nat → List (List String) →
    Except Unit (List (List String))
  | _, _, [] => Except.ok []
  | idx, cnt, g :: rest =>
    if g = [] then (relocLoop env (idx + 1) cnt rest).map (fun ms => [] :: ms)
    else
      match env.getTs g.headI with
      | some t =>
        let moved :=
          if env.mkdirOk (groupFolderName env idx g t) then g.filter env.moveOk else []
        (relocLoop env (idx + 1) (some g.length) rest).map (fun ms => moved :: ms)
      | none =>
        match cnt with
        | some _ => (relocLoop env (idx + 1) cnt rest).map (fun ms => [] :: ms)
        | none => Except.error ()

/-- Batch summary (lines 645 to 647 and 1216 to 1218): groups created, images
counted as moved, and singles; all three are computed from the groups alone,
not from the outcome of the moves. -/
def batchSummary (totalFiles : Nat) (groups : List (List String)) : Nat × Nat × Nat :=
  (groups.length, (groups.map List.length).sum,
    totalFiles - (groups.map List.length).sum)

/-- The relocation loop followed by the summary; the summary is only reached
when the loop did not raise. -/
def relocateBatch (env : RelocEnv) (groups : List (List String)) (totalFiles : Nat) :
    Except Unit (List (List String) × (Nat × Nat × Nat)) :=
  (relocLoop env 1 none groups).map (fun moved => (moved, batchSummary totalFiles groups))

/-- A directory tree: a directory name, the plain files it holds, and its
subdirectories. -/
inductive DirTree where
  | node (name : String) (files : List String) (subs : List DirTree)

mutual

/-- Model of os.walk from a root, parents before children: every directory of
the tree is yielded as its path components paired with its files. Walking
never prunes: children of every directory are visited. -/
def walk : DirTree → List String → List (List String × List String)
  | DirTree.node n fs subs, pfx =>
    (pfx ++ [n], fs) :: walkList subs (pfx ++ [n])

/-- The walk over a list of sibling directories. -/
def walkList : List DirTree → List String → List (List String × List String)
  | [], _ => []
  | d :: ds, pfx => walk d pfx ++ walkList ds pfx

end

/-- Image extension test of lines 245 and 279: the lowercased name must end
in one of the three image suffixes. -/
def isImageFile (f : String) : Bool :=
  let low := f.data.map Char.toLower
  List.isSuffixOf ".jpg".data low || List.isSuffixOf ".jpeg".data low ||
    List.isSuffixOf ".png".data low

/-- get_image_files in recursive mode (lines 240 to 246), equally the
recursive branch of get_image_files_by_folder (lines 272 to 282): walk every
directory, drop the yield whose own basename is the grouped output marker,
and keep the files with an image extension as full component paths. The walk
itself still descends into the subdirectories of a dropped directory. -/
def get_image_files (tree : DirTree) : List (List String) :=
  (walk tree []).flatMap fun e =>
    if e.1.getLastI = "_groups" then []
    else (e.2.filter isImageFile).map (fun f => e.1 ++ [f])

/-- Concrete resolver: six files one second apart. -/
def gts6 : String → Option ℚ := fun p =>
  if p = "a" then some 0 else if p = "b" then some 1 else if p = "c" then some 2
  else if p = "d" then some 3 else if p = "e" then some 4 else if p = "f" then some 5
  else none

/-- Concrete resolver: every file at instant zero. -/
def gts0 : String → Option ℚ := fun _ => some 0

/-- Concrete resolver: the file x does not resolve, every other file is at
instant zero. -/
def gtsSkip : String → Option ℚ := fun p =>
  if p = "x" then none else some 0

/-- Concrete strptime oracle under which nothing parses. -/
def strpNone : String → Option ExifDate := fun _ => none

/-- Concrete geocoder schedule: the first call fails, later calls succeed. -/
def net0 : Nat → Option String := fun n =>
  if n = 0 then none else some "x"

/-- Concrete geocode state already holding the origin pair. -/
def cacheW : GeoState :=
  ⟨[((0, 0), "kirribilli")], 3⟩

/-- Concrete relocation collaborators: every file at instant zero, directory
creation always succeeds, and the move of the file b fails. -/
def envW : RelocEnv :=
  ⟨fun _ => some 0, fun _ => "p", fun _ => "t", fun _ => true, fun f => decide (f ≠ "b")⟩

/-- Concrete relocation collaborators under which no file resolves to a
timestamp. -/
def envBad : RelocEnv :=
  ⟨fun _ => none, fun _ => "p", fun _ => "t", fun _ => true, fun _ => true⟩

/-- Concrete relocation collaborators under which only the file x fails to
resolve. -/
def envSkip : RelocEnv :=
  ⟨gtsSkip, fun _ => "p", fun _ => "t", fun _ => true, fun _ => true⟩

/-- Concrete source tree holding a grouped output folder with one grouped
subfolder. -/
def treeC9 : DirTree :=
  DirTree.node "src" ["top.jpg", "notes.txt"]
    [DirTree.node "_groups" ["direct.jpg"] [DirTree.node "g1" ["a.jpg"] []]]

/-- C3 counterexample: the CLI path assigns the increment to the global
threshold without clamping, so a negative increment reaches the grouper
below the stated floor of 0.01 seconds, refuting the claim that every path
clamps. -/
theorem cli_threshold_counterexample :
    cliSetThreshold (-1) = -1 ∧ ¬ ((1 : ℚ) / 100 ≤ cliSetThreshold (-1)) := by
  refine ⟨rfl, ?_⟩
  norm_num [cliSetThreshold]

/-- C3 amended: only the GUI update clamps a parsed entry to the floor of
0.01 seconds and keeps the previous threshold when the entry fails to parse;
the CLI path assigns the increment unchanged, with no floor at all. -/
theorem threshold_paths :
    (∀ prev val : ℚ, update_thresholds prev (some val) = max (1 / 100) val) ∧
    (∀ prev val : ℚ, (1 : ℚ) / 100 ≤ update_thresholds prev (some val)) ∧
    (∀ prev : ℚ, update_thresholds prev none = prev) ∧
    (∀ inc : ℚ, cliSetThreshold inc = inc) :=
  ⟨fun _ _ => rfl, fun _ val => le_max_left ((1 : ℚ) / 100) val, fun _ => rfl,
    fun _ => rfl⟩

/-- C6: the remaining time estimate follows the stated formula, but the
reported elapsed time does not exclude paused duration. After one completed
pause of five seconds, pause_or_continue has added the pause to the
accumulator defined in main while the shadowing accumulator local to task,
the one progress_callback subtracts, is still zero; at wall clock twenty the
callback therefore reports twenty elapsed seconds instead of fifteen. -/
theorem pause_time_not_excluded :
    (resumeAfterPause taskInitClocks 5).mainPaused = 5 ∧
    (resumeAfterPause taskInitClocks 5).taskPaused = 0 ∧
    reportedElapsed (resumeAfterPause taskInitClocks 5) 20 0 = 20 ∧
    reportedElapsed (resumeAfterPause taskInitClocks 5) 20 0 ≠
      20 - (resumeAfterPause taskInitClocks 5).mainPaused ∧
    remainingEstimate 10 25 = 30 ∧
    remainingEstimate 10 0 = -1 := by
  norm_num [resumeAfterPause, taskInitClocks, reportedElapsed, remainingEstimate]

/-- Poll counts add over concatenated traces. -/
theorem pollCount_append (t1 t2 : List WorkerEv) :
    pollCount (t1 ++ t2) = pollCount t1 + pollCount t2 := by
  simp [pollCount, List.filter_append]

/-- The relocation loop trace contains no poll events from any index. -/
theorem relocTraceAux_pollCount (groups : List (List String)) :
    ∀ idx, pollCount (relocTraceAux idx groups) = 0 := by
  induction groups with
  | nil => intro idx; rfl
  | cons g rest ih =>
    intro idx
    simp only [relocTraceAux, pollCount_append]
    rw [ih]
    by_cases hg : g = []
    · rw [if_pos hg]; rfl
    · rw [if_neg hg]; rfl

/-- C7 counterexample: the relocation loop polls the pause flag zero times,
while for a batch with one nonempty relocated group the claim demands one
poll during relocation. -/
theorem reloc_poll_counterexample :
    relocTrace [["a", "b", "c", "d", "e"]] = [WorkerEv.moveGroup 1] ∧
    pollCount (relocTrace [["a", "b", "c", "d", "e"]]) = 0 ∧
    ([["a", "b", "c", "d", "e"]] : List (List String)).length = 1 :=
  ⟨rfl, rfl, rfl⟩

/-- C7 amended: the classification loop polls the pause flag exactly once per
classified item, an item without a timestamp is skipped without a poll, and
the relocation loop never polls the flag, so pausing does not suspend group
relocation; the sleep interval while paused is a real time property outside
the embedding. -/
theorem poll_sites (getTs : String → Option ℚ) (items : List String)
    (groups : List (List String)) :
    pollCount (classifyTrace getTs items) =
      (items.filter (fun p => (getTs p).isSome)).length ∧
    pollCount (relocTrace groups) = 0 := by
  constructor
  · induction items with
    | nil => rfl
    | cons p rest ih =>
      have hstep : classifyTrace getTs (p :: rest) =
          (match getTs p with
            | none => []
            | some _ => [WorkerEv.classifyItem p, WorkerEv.pollPause]) ++
            classifyTrace getTs rest := by
        simp [classifyTrace]
      rw [hstep, pollCount_append, ih, List.filter_cons]
      cases hp : getTs p
      · simp [pollCount]
      · simp only [Option.isSome_some, if_pos, List.length_cons]
        have h2 : pollCount [WorkerEv.classifyItem p, WorkerEv.pollPause] = 1 := rfl
        rw [h2]
        omega
  · exact relocTraceAux_pollCount groups 1

/-- C9: recursive enumeration over a source tree holding the grouped output
folder. The walk drops the yield of the folder itself but still descends
into its subdirectories, so the grouped image beneath the marker folder is
enumerated, against the claim and against the docstring of get_image_files;
the extension filter is visible in the text file being dropped. -/
theorem groups_folder_reprocessed :
    get_image_files treeC9 =
      [["src", "top.jpg"], ["src", "_groups", "g1", "a.jpg"]] ∧
    "_groups" ∈ (["src", "_groups", "g1", "a.jpg"] : List String).dropLast := by
  exact ⟨by decide, by decide⟩

/-- C4 counterexample: a file whose metadata read raises but whose
modification time is obtainable. get_image_timestamp returns absence even
though the claim allows absence only on total failure; the resolver the
specification describes returns the modification time here. -/
theorem resolver_counterexample :
    get_image_timestamp strpNone 2025 ⟨false, none, some 0⟩ = none ∧
    (⟨false, none, some 0⟩ : FileMeta).mtime = some 0 ∧
    resolverSpec strpNone 2025 ⟨false, none, some 0⟩ = some 0 :=
  ⟨rfl, rfl, rfl⟩

/-- C4 amended: for every file whose metadata read completes, the code and
the specified resolver agree, so the parsed instant is returned exactly when
the tag parses with a plausible year, the modification time otherwise, and
absence only when the modification time is unobtainable too; when the read
itself raises, the code returns absence without consulting the modification
time. -/
theorem resolver_refines_spec (strptime : String → Option ExifDate)
    (currentYear : ℤ) (f : FileMeta) (h : f.exifOk = true) :
    get_image_timestamp strptime currentYear f = resolverSpec strptime currentYear f ∧
    (get_image_timestamp strptime currentYear f = none → f.mtime = none) := by
  obtain ⟨eo, dtag, mt⟩ := f
  replace h : eo = true := h
  subst h
  have e1 : get_image_timestamp strptime currentYear ⟨true, dtag, mt⟩ =
      resolverSpec strptime currentYear ⟨true, dtag, mt⟩ := by
    cases dtag with
    | none => rfl
    | some s =>
      cases hs : strptime s with
      | none => simp [get_image_timestamp, resolverSpec, hs]
      | some dt => simp [get_image_timestamp, resolverSpec, hs]
  refine ⟨e1, ?_⟩
  rw [e1]
  cases dtag with
  | none => exact id
  | some s =>
    cases hs : strptime s with
    | none => simp [resolverSpec, hs]
    | some dt =>
      simp only [resolverSpec, if_true, hs]
      by_cases hy : dt.year < 2000 ∨ currentYear + 1 < dt.year
      · rw [if_pos hy]; exact id
      · rw [if_neg hy]
        intro hm
        exact absurd hm (Option.some_ne_none _)

/-- C4 witness: the amended agreement evaluated at a file whose read
completes and whose tag is absent. -/
theorem resolver_refines_spec_witness :
    get_image_timestamp strpNone 2025 ⟨true, none, some 3⟩ =
      resolverSpec strpNone 2025 ⟨true, none, some 3⟩ :=
  (resolver_refines_spec strpNone 2025 ⟨true, none, some 3⟩ rfl).1

/-- C5 counterexample: two resolutions of the same rounded pair under a
schedule whose first reverse geocode call fails and whose second succeeds.
The failure is not cached, so the pair is queried twice over the network and
the two labels differ, refuting the claimed single lookup and identical
label per pair. -/
theorem geocode_counterexample :
    (processKeys net0 ⟨[], 0⟩ [(0, 0), (0, 0)]).1 =
      [none, some (normalize_location "x")] ∧
    (processKeys net0 ⟨[], 0⟩ [(0, 0), (0, 0)]).2.calls = 2 ∧
    (none : Option String) ≠ some (normalize_location "x") := by
  refine ⟨rfl, rfl, by simp⟩

/-- One lookup never removes or changes an existing cache entry. -/
theorem gpsLookup_preserves (net : Nat → Option String) (st : GeoState)
    (k k2 : GeoKey) (v : String) (h : cacheFind st.cache k2 = some v) :
    cacheFind (gpsLookup net st k).2.cache k2 = some v := by
  unfold gpsLookup
  cases hc : cacheFind st.cache k with
  | some place => exact h
  | none =>
    cases hn : net st.calls with
    | none => exact h
    | some place =>
      show cacheFind ((k, place) :: st.cache) k2 = some v
      unfold cacheFind
      by_cases hk : k = k2
      · rw [hk] at hc
        rw [hc] at h
        exact absurd h (by simp)
      · rw [if_neg hk]
        exact h

/-- A whole batch never removes or changes an existing cache entry. -/
theorem processKeys_preserves (net : Nat → Option String) :
    ∀ (ks : List GeoKey) (st : GeoState) (k2 : GeoKey) (v : String),
      cacheFind st.cache k2 = some v →
      cacheFind (processKeys net st ks).2.cache k2 = some v := by
  intro ks
  induction ks with
  | nil => intro st k2 v h; exact h
  | cons k ks ih =>
    intro st k2 v h
    exact ih (gpsLookup net st k).2 k2 v (gpsLookup_preserves net st k k2 v h)

/-- Once a pair is cached, every later resolution of it in a batch returns
the cached place, normalized. -/
theorem processKeys_label_cached (net : Nat → Option String) :
    ∀ (ks : List GeoKey) (st : GeoState) (k : GeoKey) (place : String) (i : Nat),
      cacheFind st.cache k = some place → ks.get? i = some k →
      (processKeys net st ks).1.get? i = some (some (normalize_location place)) := by
  intro ks
  induction ks with
  | nil => intro st k place i hc hi; cases hi
  | cons k2 ks ih =>
    intro st k place i hc hi
    have hcons : (processKeys net st (k2 :: ks)).1 =
        (gpsLookup net st k2).1 :: (processKeys net (gpsLookup net st k2).2 ks).1 := rfl
    cases i with
    | zero =>
      have hk : k2 = k := by simpa using hi
      subst hk
      rw [hcons, List.get?_cons_zero]
      unfold gpsLookup
      rw [hc]
    | succ j =>
      have hj : ks.get? j = some k := by simpa using hi
      rw [hcons, List.get?_cons_succ]
      exact ih (gpsLookup net st k2).2 k place j
        (gpsLookup_preserves net st k2 k place hc) hj

/-- C5 amended: a cached pair is returned normalized with no state change and
no network call; a successful call on a miss caches the raw place and
returns it normalized; a failed call caches nothing, advances only the call
counter and falls through; an existing cache entry is never changed by a
lookup; and once a pair is cached, every later resolution of it in the batch
yields the same label. The claimed single lookup per pair holds only from
the first successful lookup on: a failed lookup leaves the pair uncached, so
it can be queried again. -/
theorem geocode_cache_behavior (net : Nat → Option String) (st : GeoState)
    (k : GeoKey) :
    (∀ place, cacheFind st.cache k = some place →
      gpsLookup net st k = (some (normalize_location place), st)) ∧
    (∀ place, cacheFind st.cache k = none → net st.calls = some place →
      gpsLookup net st k =
        (some (normalize_location place), ⟨(k, place) :: st.cache, st.calls + 1⟩)) ∧
    (cacheFind st.cache k = none → net st.calls = none →
      gpsLookup net st k = (none, ⟨st.cache, st.calls + 1⟩)) ∧
    (∀ k2 v, cacheFind st.cache k2 = some v →
      cacheFind (gpsLookup net st k).2.cache k2 = some v) ∧
    (∀ ks place i, cacheFind st.cache k = some place → ks.get? i = some k →
      (processKeys net st ks).1.get? i = some (some (normalize_location place))) := by
  refine ⟨?_, ?_, ?_, ?_, ?_⟩
  · intro place hc
    unfold gpsLookup
    rw [hc]
  · intro place hc hn
    unfold gpsLookup
    rw [hc, hn]
  · intro hc hn
    unfold gpsLookup
    rw [hc, hn]
  · intro k2 v h
    exact gpsLookup_preserves net st k k2 v h
  · intro ks place i hc hi
    exact processKeys_label_cached net ks st k place i hc hi

/-- C5 witness: the cache behavior applied to a concrete state already
holding the origin pair, and to the empty state under a failing first
call. -/
theorem geocode_cache_behavior_witness :
    gpsLookup net0 cacheW (0, 0) = (some (normalize_location "kirribilli"), cacheW) ∧
    gpsLookup net0 ⟨[], 0⟩ (0, 0) = (none, ⟨[], 1⟩) := by
  refine ⟨(geocode_cache_behavior net0 cacheW (0, 0)).1 "kirribilli" rfl, ?_⟩
  exact (geocode_cache_behavior net0 ⟨[], 0⟩ (0, 0)).2.2.1 rfl rfl

/-- With directory creation succeeding and the count variable already
assigned, the relocation loop completes and moves, per group, exactly the
files the move oracle accepts from the groups whose earliest member
resolves. -/
theorem relocLoop_some_ok (env : RelocEnv) (hmk : ∀ s, env.mkdirOk s = true) :
    ∀ (groups : List (List String)) (idx c : Nat),
      relocLoop env idx (some c) groups =
        Except.ok (groups.map fun g =>
          if (env.getTs g.headI).isSome = true then g.filter env.moveOk else []) := by
  intro groups
  induction groups with
  | nil => intro idx c; rfl
  | cons g rest ih =>
    intro idx c
    simp only [relocLoop]
    by_cases hg : g = []
    · rw [if_pos hg, ih (idx + 1) c]
      show Except.ok ([] :: _) = _
      rw [List.map_cons]
      cases hsome : (env.getTs g.headI).isSome
      · rfl
      · rw [if_pos rfl]
        subst hg
        rfl
    · rw [if_neg hg]
      split
      next tg hts =>
        rw [hmk (groupFolderName env idx g tg), ih (idx + 1) g.length,
          List.map_cons, hts]
        simp
        rfl
      next hts =>
        rw [ih (idx + 1) c, List.map_cons, hts]
        simp [Except.map]

/-- With directory creation succeeding and every nonempty group resolvable,
the relocation loop completes from an unassigned count variable as well. -/
theorem relocLoop_start_ok (env : RelocEnv) (hmk : ∀ s, env.mkdirOk s = true) :
    ∀ (groups : List (List String)) (idx : Nat),
      (∀ g ∈ groups, g ≠ [] → (env.getTs g.headI).isSome = true) →
      relocLoop env idx none groups =
        Except.ok (groups.map fun g =>
          if (env.getTs g.headI).isSome = true then g.filter env.moveOk else []) := by
  intro groups
  induction groups with
  | nil => intro idx hts; rfl
  | cons g rest ih =>
    intro idx hts
    simp only [relocLoop]
    by_cases hg : g = []
    · rw [if_pos hg, ih (idx + 1) (fun g2 hg2 => hts g2 (List.mem_cons_of_mem g hg2))]
      show Except.ok ([] :: _) = _
      rw [List.map_cons]
      cases hsome : (env.getTs g.headI).isSome
      · rfl
      · rw [if_pos rfl]
        subst hg
        rfl
    · rw [if_neg hg]
      have hsome := hts g (List.mem_cons_self g rest) hg
      obtain ⟨tg, htg⟩ := Option.isSome_iff_exists.mp hsome
      rw [htg]
      show (relocLoop env (idx + 1) (some g.length) rest).map _ = _
      rw [hmk (groupFolderName env idx g tg), if_pos rfl,
        relocLoop_some_ok env hmk rest (idx + 1) g.length, List.map_cons, htg]
      rfl

/-- C8: with every nonempty run resolvable at relocation time and directory
creation succeeding, a failed move of one file is swallowed: each run moves
exactly the files the move oracle accepts even when other files of the run
fail, every run is processed, and the summary counts every run as formed,
all run members as moved and singles as the total minus the summed run
sizes, independent of any move outcome. -/
theorem move_failure_swallowed (env : RelocEnv) (groups : List (List String))
    (totalFiles : Nat) (hmk : ∀ s, env.mkdirOk s = true)
    (hts : ∀ g ∈ groups, g ≠ [] → (env.getTs g.headI).isSome = true) :
    relocateBatch env groups totalFiles =
      Except.ok
        (groups.map fun g =>
          if (env.getTs g.headI).isSome = true then g.filter env.moveOk else [],
         (groups.length, (groups.map List.length).sum,
          totalFiles - (groups.map List.length).sum)) := by
  unfold relocateBatch batchSummary
  rw [relocLoop_start_ok env hmk groups 1 hts]
  rfl

/-- C8 witness: a five file run whose second file fails to move; the other
four are moved and the summary still reports one group formed, five images
moved and two singles of seven files. -/
theorem move_failure_swallowed_witness :
    relocateBatch envW [["a", "b", "c", "d", "e"]] 7 =
      Except.ok ([["a", "c", "d", "e"]], (1, 5, 2)) := by
  have h := move_failure_swallowed envW [["a", "b", "c", "d", "e"]] 7
    (fun _ => rfl) (by decide)
  rw [h]
  rfl

/-- C10 counterexample: a batch whose first and only run fails its timestamp
re-resolution at relocation time. The loop evaluates the never assigned
count variable in its debug log and raises, so the batch aborts with no
summary at all instead of counting the skipped run in a final summary. -/
theorem skipped_run_crash :
    relocateBatch envBad [["a", "b", "c", "d", "e"]] 5 = Except.error () := rfl

/-- C10 amended: when an earlier run has already reached the naming step, a
later run whose re-resolution yields absence is skipped silently, moving
none of its files, the batch completes, and the summary still counts the
skipped run among the groups formed and its members among the images moved;
but when no earlier run assigned the count variable, the loop raises
instead and no summary is produced. -/
theorem skipped_run_still_counted (env : RelocEnv) (g1 gbad : List String)
    (rest : List (List String)) (totalFiles : Nat)
    (hmk : ∀ s, env.mkdirOk s = true) (h1ne : g1 ≠ []) (hbadne : gbad ≠ [])
    (h1ts : (env.getTs g1.headI).isSome = true)
    (hbadts : env.getTs gbad.headI = none) :
    relocateBatch env (g1 :: gbad :: rest) totalFiles =
      Except.ok
        (((g1 :: gbad :: rest).map fun g =>
            if (env.getTs g.headI).isSome = true then g.filter env.moveOk else []),
         ((g1 :: gbad :: rest).length, ((g1 :: gbad :: rest).map List.length).sum,
          totalFiles - ((g1 :: gbad :: rest).map List.length).sum)) ∧
    (((g1 :: gbad :: rest).map fun g =>
        if (env.getTs g.headI).isSome = true then g.filter env.moveOk else []).get? 1 =
      some []) := by
  obtain ⟨t1, ht1⟩ := Option.isSome_iff_exists.mp h1ts
  constructor
  · unfold relocateBatch batchSummary
    have step1 : relocLoop env 1 none (g1 :: gbad :: rest) =
        (relocLoop env (1 + 1) (some g1.length) (gbad :: rest)).map
          (fun ms =>
            (if env.mkdirOk (groupFolderName env 1 g1 t1) = true then
              g1.filter env.moveOk else []) :: ms) := by
      conv_lhs => rw [relocLoop]
      rw [if_neg h1ne, ht1]
    have step2 : relocLoop env (1 + 1) (some g1.length) (gbad :: rest) =
        (relocLoop env (1 + 1 + 1) (some g1.length) rest).map (fun ms => [] :: ms) := by
      conv_lhs => rw [relocLoop]
      rw [if_neg hbadne, hbadts]
    rw [step1, step2, relocLoop_some_ok env hmk rest (1 + 1 + 1) g1.length]
    simp only [Except.map, List.map_cons]
    rw [ht1, hbadts, hmk (groupFolderName env 1 g1 t1)]
    simp
  · rw [List.map_cons, List.map_cons, List.get?_cons_succ, List.get?_cons_zero, hbadts]
    rfl

/-- C10 witness: a first run that relocates normally, followed by a run whose
re-resolution fails; the batch ends without error, the second run moves
nothing, and the summary counts two groups and ten images moved of twelve
files. -/
theorem skipped_run_still_counted_witness :
    relocateBatch envSkip [["a", "b", "c", "d", "e"], ["x", "y", "z", "u", "v"]] 12 =
      Except.ok ([["a", "b", "c", "d", "e"], []], (2, 10, 2)) := by
  have h := (skipped_run_still_counted envSkip ["a", "b", "c", "d", "e"]
    ["x", "y", "z", "u", "v"] [] 12 (fun _ => rfl) (by decide) (by decide) rfl rfl).1
  rw [h]
  rfl

/-- Step equation of the run scan on an unresolvable item. -/
theorem scanRuns_cons_none (getTs : String → Option ℚ) (t : ℚ) (p : String)
    (rest cur : List String) (last : ℚ) (hp : getTs p = none) :
    scanRuns getTs t (p :: rest) cur last = scanRuns getTs t rest cur last := by
  rw [scanRuns, hp]

/-- Step equation of the run scan on a resolvable item. -/
theorem scanRuns_cons_some (getTs : String → Option ℚ) (t : ℚ) (p : String)
    (rest cur : List String) (last ts : ℚ) (hp : getTs p = some ts) :
    scanRuns getTs t (p :: rest) cur last =
      if cur = [] then scanRuns getTs t rest [p] ts
      else if ts - last ≤ t then scanRuns getTs t rest (cur ++ [p]) ts
      else if 5 ≤ cur.length then cur :: scanRuns getTs t rest [p] ts
      else scanRuns getTs t rest [p] ts := by
  rw [scanRuns, hp]

/-- Step equation of the block scan on an unresolvable item. -/
theorem scanBlocks_cons_none (getTs : String → Option ℚ) (t : ℚ) (p : String)
    (rest cur : List String) (last : ℚ) (hp : getTs p = none) :
    scanBlocks getTs t (p :: rest) cur last = scanBlocks getTs t rest cur last := by
  rw [scanBlocks, hp]

/-- Step equation of the block scan on a resolvable item. -/
theorem scanBlocks_cons_some (getTs : String → Option ℚ) (t : ℚ) (p : String)
    (rest cur : List String) (last ts : ℚ) (hp : getTs p = some ts) :
    scanBlocks getTs t (p :: rest) cur last =
      if cur = [] then scanBlocks getTs t rest [p] ts
      else if ts - last ≤ t then scanBlocks getTs t rest (cur ++ [p]) ts
      else cur :: scanBlocks getTs t rest [p] ts := by
  rw [scanBlocks, hp]

/-- The emitted runs are exactly the blocks of the underlying partition that
reach the minimum size. -/
theorem scanRuns_eq_filter (getTs : String → Option ℚ) (t : ℚ) :
    ∀ (items cur : List String) (last : ℚ),
      scanRuns getTs t items cur last =
        (scanBlocks getTs t items cur last).filter (fun g => decide (5 ≤ g.length)) := by
  intro items
  induction items with
  | nil =>
    intro cur last
    simp only [scanRuns, scanBlocks]
    by_cases hc : cur = []
    · rw [if_pos hc, if_neg (by rw [hc]; decide)]
      rfl
    · rw [if_neg hc]
      by_cases h5 : 5 ≤ cur.length
      · rw [if_pos h5]
        simp [h5]
      · rw [if_neg h5]
        simp [h5]
  | cons p rest ih =>
    intro cur last
    cases hp : getTs p with
    | none =>
      rw [scanRuns_cons_none getTs t p rest cur last hp,
        scanBlocks_cons_none getTs t p rest cur last hp]
      exact ih cur last
    | some ts =>
      rw [scanRuns_cons_some getTs t p rest cur last ts hp,
        scanBlocks_cons_some getTs t p rest cur last ts hp]
      by_cases hc : cur = []
      · rw [if_pos hc, if_pos hc]
        exact ih [p] ts
      · rw [if_neg hc, if_neg hc]
        by_cases hle : ts - last ≤ t
        · rw [if_pos hle, if_pos hle]
          exact ih (cur ++ [p]) ts
        · rw [if_neg hle, if_neg hle, List.filter_cons]
          by_cases h5 : 5 ≤ cur.length
          · rw [if_pos h5, decide_eq_true h5, if_pos rfl, ih [p] ts]
          · rw [if_neg h5, decide_eq_false h5, if_neg (by simp), ih [p] ts]

/-- Every block of the underlying partition is nonempty. -/
theorem scanBlocks_forall_ne_nil (getTs : String → Option ℚ) (t : ℚ) :
    ∀ (items cur : List String) (last : ℚ) (B : List String),
      B ∈ scanBlocks getTs t items cur last → B ≠ [] := by
  intro items
  induction items with
  | nil =>
    intro cur last B hB
    by_cases hc : cur = []
    · rw [scanBlocks, if_pos hc] at hB
      cases hB
    · rw [scanBlocks, if_neg hc] at hB
      rcases List.mem_singleton.mp hB with h
      rw [h]
      exact hc
  | cons p rest ih =>
    intro cur last B hB
    cases hp : getTs p with
    | none =>
      rw [scanBlocks_cons_none getTs t p rest cur last hp] at hB
      exact ih cur last B hB
    | some ts =>
      rw [scanBlocks_cons_some getTs t p rest cur last ts hp] at hB
      by_cases hc : cur = []
      · rw [if_pos hc] at hB
        exact ih [p] ts B hB
      · rw [if_neg hc] at hB
        by_cases hle : ts - last ≤ t
        · rw [if_pos hle] at hB
          exact ih (cur ++ [p]) ts B hB
        · rw [if_neg hle] at hB
          rcases List.mem_cons.mp hB with h | h
          · rw [h]; exact hc
          · exact ih [p] ts B h

/-- With every item resolvable, the blocks flatten to the pending group
followed by the remaining items: the partition covers the input. -/
theorem scanBlocks_flatten (getTs : String → Option ℚ) (t : ℚ) :
    ∀ (items cur : List String) (last : ℚ),
      (∀ p ∈ items, (getTs p).isSome = true) →
      (scanBlocks getTs t items cur last).flatten = cur ++ items := by
  intro items
  induction items with
  | nil =>
    intro cur last _
    by_cases hc : cur = []
    · rw [scanBlocks, if_pos hc, hc]
      rfl
    · rw [scanBlocks, if_neg hc]
      simp
  | cons p rest ih =>
    intro cur last hsome
    cases hp : getTs p with
    | none =>
      exfalso
      have := hsome p (List.mem_cons_self p rest)
      rw [hp] at this
      cases this
    | some ts =>
      rw [scanBlocks_cons_some getTs t p rest cur last ts hp]
      have hrest : ∀ q ∈ rest, (getTs q).isSome = true :=
        fun q hq => hsome q (List.mem_cons_of_mem p hq)
      by_cases hc : cur = []
      · rw [if_pos hc, ih [p] ts hrest, hc]
        rfl
      · rw [if_neg hc]
        by_cases hle : ts - last ≤ t
        · rw [if_pos hle, ih (cur ++ [p]) ts hrest]
          simp
        · rw [if_neg hle, List.flatten_cons, ih [p] ts hrest]
          rfl

/-- With the pending group chained and its last member at the tracked
timestamp, every emitted block is chained: adjacent members of a block are
within the threshold of each other. -/
theorem scanBlocks_chain (getTs : String → Option ℚ) (t : ℚ) :
    ∀ (items cur : List String) (last : ℚ),
      (∀ p ∈ items, (getTs p).isSome = true) →
      cur.Chain' (fun a b => tsv getTs b - tsv getTs a ≤ t) →
      (∀ x ∈ cur.getLast?, tsv getTs x = last) →
      ∀ B ∈ scanBlocks getTs t items cur last,
        B.Chain' (fun a b => tsv getTs b - tsv getTs a ≤ t) := by
  intro items
  induction items with
  | nil =>
    intro cur last _ hchain _ B hB
    by_cases hc : cur = []
    · rw [scanBlocks, if_pos hc] at hB
      cases hB
    · rw [scanBlocks, if_neg hc] at hB
      rw [List.mem_singleton.mp hB]
      exact hchain
  | cons p rest ih =>
    intro cur last hsome hchain hlast B hB
    cases hp : getTs p with
    | none =>
      exfalso
      have := hsome p (List.mem_cons_self p rest)
      rw [hp] at this
      cases this
    | some ts =>
      rw [scanBlocks_cons_some getTs t p rest cur last ts hp] at hB
      have hrest : ∀ q ∈ rest, (getTs q).isSome = true :=
        fun q hq => hsome q (List.mem_cons_of_mem p hq)
      have htp : tsv getTs p = ts := by
        rw [tsv, hp]
        rfl
      by_cases hc : cur = []
      · rw [if_pos hc] at hB
        exact ih [p] ts hrest (List.chain'_singleton p)
          (fun x hx => by
            rw [List.getLast?_singleton] at hx
            rw [← Option.mem_some_iff.mp hx]
            exact htp) B hB
      · rw [if_neg hc] at hB
        by_cases hle : ts - last ≤ t
        · rw [if_pos hle] at hB
          refine ih (cur ++ [p]) ts hrest ?_ ?_ B hB
          · rw [List.chain'_append]
            refine ⟨hchain, List.chain'_singleton p, ?_⟩
            intro x hx y hy
            rw [List.head?_singleton] at hy
            rw [← Option.mem_some_iff.mp hy, htp, hlast x hx]
            exact hle
          · intro x hx
            rw [List.getLast?_append, List.getLast?_singleton] at hx
            have hx2 : x ∈ (some p : Option String) := hx
            rw [← Option.mem_some_iff.mp hx2]
            exact htp
        · rw [if_neg hle] at hB
          rcases List.mem_cons.mp hB with h | h
          · rw [h]
            exact hchain
          · exact ih [p] ts hrest (List.chain'_singleton p)
              (fun x hx => by
                rw [List.getLast?_singleton] at hx
                rw [← Option.mem_some_iff.mp hx]
                exact htp) B h

/-- With the input sorted and the pending group ending at the tracked
timestamp, any two emitted blocks are separated by more than the threshold:
the last member of the earlier block and the first member of the later block
are more than the threshold apart. -/
theorem scanBlocks_pairwise (getTs : String → Option ℚ) (t : ℚ) :
    ∀ (items cur : List String) (last : ℚ),
      (∀ p ∈ items, (getTs p).isSome = true) →
      items.Pairwise (fun a b => tsv getTs a ≤ tsv getTs b) →
      (∀ x ∈ cur.getLast?, tsv getTs x = last) →
      (scanBlocks getTs t items cur last).Pairwise
        (fun B1 B2 => ∀ a ∈ B1.getLast?, ∀ b ∈ B2.head?,
          t < tsv getTs b - tsv getTs a) := by
  intro items
  induction items with
  | nil =>
    intro cur last _ _ _
    by_cases hc : cur = []
    · rw [scanBlocks, if_pos hc]
      exact List.Pairwise.nil
    · rw [scanBlocks, if_neg hc]
      exact List.pairwise_singleton _ _
  | cons p rest ih =>
    intro cur last hsome hsorted hlast
    cases hp : getTs p with
    | none =>
      exfalso
      have := hsome p (List.mem_cons_self p rest)
      rw [hp] at this
      cases this
    | some ts =>
      rw [scanBlocks_cons_some getTs t p rest cur last ts hp]
      have hrest : ∀ q ∈ rest, (getTs q).isSome = true :=
        fun q hq => hsome q (List.mem_cons_of_mem p hq)
      have hsortrest := (List.pairwise_cons.mp hsorted).2
      have hple := (List.pairwise_cons.mp hsorted).1
      have htp : tsv getTs p = ts := by
        rw [tsv, hp]
        rfl
      have hlastp : ∀ x ∈ ([p] : List String).getLast?, tsv getTs x = ts := by
        intro x hx
        rw [List.getLast?_singleton] at hx
        rw [← Option.mem_some_iff.mp hx]
        exact htp
      by_cases hc : cur = []
      · rw [if_pos hc]
        exact ih [p] ts hrest hsortrest hlastp
      · rw [if_neg hc]
        by_cases hle : ts - last ≤ t
        · rw [if_pos hle]
          refine ih (cur ++ [p]) ts hrest hsortrest ?_
          intro x hx
          rw [List.getLast?_append, List.getLast?_singleton] at hx
          have hx2 : x ∈ (some p : Option String) := hx
          rw [← Option.mem_some_iff.mp hx2]
          exact htp
        · rw [if_neg hle]
          rw [List.pairwise_cons]
          refine ⟨?_, ih [p] ts hrest hsortrest hlastp⟩
          intro B2 hB2 a ha b hb
          have hlastcur : tsv getTs a = last := hlast a ha
          have hbmem : b ∈ B2 := List.mem_of_mem_head? hb
          have hbin : b ∈ p :: rest := by
            have hflat := scanBlocks_flatten getTs t rest [p] ts hrest
            have : b ∈ (scanBlocks getTs t rest [p] ts).flatten :=
              List.mem_flatten.mpr ⟨B2, hB2, hbmem⟩
            rw [hflat] at this
            exact this
          have hts_le : ts ≤ tsv getTs b := by
            rcases List.mem_cons.mp hbin with h | h
            · rw [h, htp]
            · rw [← htp]
              exact hple b h
          have hgt : t < ts - last := lt_of_not_le hle
          rw [hlastcur]
          linarith

/-- A nonempty pending group is wholly contained in some emitted block. -/
theorem cur_in_some_block (getTs : String → Option ℚ) (t : ℚ) :
    ∀ (items cur : List String) (last : ℚ), cur ≠ [] →
      ∃ B, B ∈ scanBlocks getTs t items cur last ∧ ∀ x ∈ cur, x ∈ B := by
  intro items
  induction items with
  | nil =>
    intro cur last hc
    refine ⟨cur, ?_, fun x hx => hx⟩
    rw [scanBlocks, if_neg hc]
    exact List.mem_singleton_self cur
  | cons p rest ih =>
    intro cur last hc
    cases hp : getTs p with
    | none =>
      obtain ⟨B, hB, hsub⟩ := ih cur last hc
      exact ⟨B, by rw [scanBlocks_cons_none getTs t p rest cur last hp]; exact hB, hsub⟩
    | some ts =>
      by_cases hle : ts - last ≤ t
      · obtain ⟨B, hB, hsub⟩ := ih (cur ++ [p]) ts (by simp)
        refine ⟨B, ?_, fun x hx => hsub x (List.mem_append_left [p] hx)⟩
        rw [scanBlocks_cons_some getTs t p rest cur last ts hp, if_neg hc, if_pos hle]
        exact hB
      · refine ⟨cur, ?_, fun x hx => hx⟩
        rw [scanBlocks_cons_some getTs t p rest cur last ts hp, if_neg hc, if_neg hle]
        exact List.mem_cons_self cur _

/-- When the next item chains onto the pending group, any member of that
group ends up in the same emitted block as the next item. -/
theorem two_in_block_of_chain (getTs : String → Option ℚ) (t : ℚ)
    (l2 cur : List String) (last : ℚ) (a b : String) (tsB : ℚ)
    (hB : getTs b = some tsB) (haMem : a ∈ cur) (hne : cur ≠ [])
    (hle : tsB - last ≤ t) :
    ∃ B, B ∈ scanBlocks getTs t (b :: l2) cur last ∧ a ∈ B ∧ b ∈ B := by
  rw [scanBlocks_cons_some getTs t b l2 cur last tsB hB, if_neg hne, if_pos hle]
  obtain ⟨B, hBmem, hsub⟩ := cur_in_some_block getTs t l2 (cur ++ [b]) tsB (by simp)
  exact ⟨B, hBmem, hsub a (List.mem_append_left [b] haMem),
    hsub b (List.mem_append_right cur (List.mem_singleton_self b))⟩

/-- Two input adjacent items within the threshold of each other land in the
same block of the partition. -/
theorem adj_same_block (getTs : String → Option ℚ) (t : ℚ) :
    ∀ (l1 : List String) (a b : String) (l2 cur : List String) (last : ℚ),
      (∀ p ∈ l1 ++ a :: b :: l2, (getTs p).isSome = true) →
      tsv getTs b - tsv getTs a ≤ t →
      ∃ B, B ∈ scanBlocks getTs t (l1 ++ a :: b :: l2) cur last ∧ a ∈ B ∧ b ∈ B := by
  intro l1
  induction l1 with
  | nil =>
    intro a b l2 cur last hsome hgap
    obtain ⟨tsA, hA⟩ := Option.isSome_iff_exists.mp
      (hsome a (by simp))
    obtain ⟨tsB, hBs⟩ := Option.isSome_iff_exists.mp
      (hsome b (by simp))
    have htA : tsv getTs a = tsA := by rw [tsv, hA]; rfl
    have htB : tsv getTs b = tsB := by rw [tsv, hBs]; rfl
    have hgap2 : tsB - tsA ≤ t := by
      rw [← htA, ← htB]
      exact hgap
    rw [List.nil_append, scanBlocks_cons_some getTs t a (b :: l2) cur last tsA hA]
    by_cases hc : cur = []
    · rw [if_pos hc]
      exact two_in_block_of_chain getTs t l2 [a] tsA a b tsB hBs
        (List.mem_singleton_self a) (by simp) hgap2
    · rw [if_neg hc]
      by_cases hle : tsA - last ≤ t
      · rw [if_pos hle]
        exact two_in_block_of_chain getTs t l2 (cur ++ [a]) tsA a b tsB hBs
          (List.mem_append_right cur (List.mem_singleton_self a)) (by simp) hgap2
      · rw [if_neg hle]
        obtain ⟨B, hBmem, ha2, hb2⟩ := two_in_block_of_chain getTs t l2 [a] tsA a b tsB
          hBs (List.mem_singleton_self a) (by simp) hgap2
        exact ⟨B, List.mem_cons_of_mem cur hBmem, ha2, hb2⟩
  | cons x l1x ih =>
    intro a b l2 cur last hsome hgap
    have hsome2 : ∀ p ∈ l1x ++ a :: b :: l2, (getTs p).isSome = true :=
      fun p hp => hsome p (List.mem_cons_of_mem x hp)
    obtain ⟨tsX, hX⟩ := Option.isSome_iff_exists.mp
      (hsome x (List.mem_cons_self x _))
    rw [List.cons_append, scanBlocks_cons_some getTs t x (l1x ++ a :: b :: l2)
      cur last tsX hX]
    by_cases hc : cur = []
    · rw [if_pos hc]
      exact ih a b l2 [x] tsX hsome2 hgap
    · rw [if_neg hc]
      by_cases hle : tsX - last ≤ t
      · rw [if_pos hle]
        exact ih a b l2 (cur ++ [x]) tsX hsome2 hgap
      · rw [if_neg hle]
        obtain ⟨B, hBmem, ha2, hb2⟩ := ih a b l2 [x] tsX hsome2 hgap
        exact ⟨B, List.mem_cons_of_mem cur hBmem, ha2, hb2⟩

/-- In a family of lists whose flattening has no duplicates, an element
determines its list: two member lists sharing an element are equal. -/
theorem flatten_nodup_block_unique :
    ∀ (L : List (List String)), L.flatten.Nodup →
      ∀ B1 ∈ L, ∀ B2 ∈ L, ∀ a : String, a ∈ B1 → a ∈ B2 → B1 = B2 := by
  intro L
  induction L with
  | nil =>
    intro _ B1 hB1
    cases hB1
  | cons C L2 ih =>
    intro hnd B1 hB1 B2 hB2 a ha1 ha2
    rw [List.flatten_cons, List.nodup_append] at hnd
    obtain ⟨_, hndL2, hdisj⟩ := hnd
    rcases List.mem_cons.mp hB1 with h1 | h1
    · rcases List.mem_cons.mp hB2 with h2 | h2
      · rw [h1, h2]
      · exact absurd (List.mem_flatten.mpr ⟨B2, h2, ha2⟩) (hdisj (h1 ▸ ha1))
    · rcases List.mem_cons.mp hB2 with h2 | h2
      · exact absurd (List.mem_flatten.mpr ⟨B1, h1, ha1⟩) (hdisj (h2 ▸ ha2))
      · exact ih hndL2 B1 h1 B2 h2 a ha1 ha2

/-- C1: over a sorted, fully timestamped, duplicate free input and any
positive threshold, every emitted run has at least five members; adjacent
members of a run are within the threshold of each other; two input adjacent
items that land in distinct emitted runs are more than the threshold apart;
the last member of any earlier run and the first member of any later run
are more than the threshold apart; and a run can span more than the
threshold, witnessed by six items spaced one second apart under a one second
threshold, which form a single run spanning five seconds because contiguity
is chained against the immediate predecessor only. -/
theorem run_grouper_properties (getTs : String → Option ℚ) (t : ℚ)
    (items : List String) (hpos : 0 < t)
    (hsome : ∀ p ∈ items, (getTs p).isSome = true)
    (hsorted : items.Pairwise fun a b => tsv getTs a ≤ tsv getTs b)
    (hnodup : items.Nodup) :
    (∀ B ∈ formGroups getTs t items, 5 ≤ B.length) ∧
    (∀ B ∈ formGroups getTs t items,
      B.Chain' fun a b => tsv getTs b - tsv getTs a ≤ t) ∧
    (∀ (l1 : List String) (a b : String) (l2 : List String),
      items = l1 ++ a :: b :: l2 →
      ∀ B1 ∈ formGroups getTs t items, ∀ B2 ∈ formGroups getTs t items,
        a ∈ B1 → b ∈ B2 → B1 ≠ B2 → t < tsv getTs b - tsv getTs a) ∧
    ((formGroups getTs t items).Pairwise
      (fun B1 B2 => ∀ a ∈ B1.getLast?, ∀ b ∈ B2.head?,
        t < tsv getTs b - tsv getTs a)) ∧
    (∃ B ∈ formGroups gts6 1 ["a", "b", "c", "d", "e", "f"],
      1 < tsv gts6 B.getLastI - tsv gts6 B.headI) := by
  have hfil : formGroups getTs t items =
      (scanBlocks getTs t items [] 0).filter (fun g => decide (5 ≤ g.length)) :=
    scanRuns_eq_filter getTs t items [] 0
  refine ⟨?_, ?_, ?_, ?_, ?_⟩
  · intro B hB
    rw [hfil] at hB
    exact of_decide_eq_true (List.mem_filter.mp hB).2
  · intro B hB
    rw [hfil] at hB
    exact scanBlocks_chain getTs t items [] 0 hsome List.chain'_nil
      (fun x hx => by simp at hx) B (List.mem_of_mem_filter hB)
  · intro l1 a b l2 heq B1 hB1 B2 hB2 ha hb hne
    by_contra hng
    have hgap : tsv getTs b - tsv getTs a ≤ t := not_lt.mp hng
    subst heq
    obtain ⟨B, hBmem, haB, hbB⟩ := adj_same_block getTs t l1 a b l2 [] 0 hsome hgap
    rw [hfil] at hB1 hB2
    have hflat : (scanBlocks getTs t (l1 ++ a :: b :: l2) [] 0).flatten =
        l1 ++ a :: b :: l2 := by
      rw [scanBlocks_flatten getTs t (l1 ++ a :: b :: l2) [] 0 hsome]
      rfl
    have hnd : (scanBlocks getTs t (l1 ++ a :: b :: l2) [] 0).flatten.Nodup := by
      rw [hflat]
      exact hnodup
    have e1 := flatten_nodup_block_unique _ hnd B1 (List.mem_of_mem_filter hB1)
      B hBmem a ha haB
    have e2 := flatten_nodup_block_unique _ hnd B2 (List.mem_of_mem_filter hB2)
      B hBmem b hb hbB
    exact hne (e1.trans e2.symm)
  · rw [hfil]
    exact List.Pairwise.sublist (List.filter_sublist _)
      (scanBlocks_pairwise getTs t items [] 0 hsome hsorted
        (fun x hx => by simp at hx))
  · have he : formGroups gts6 1 ["a", "b", "c", "d", "e", "f"] =
        [["a", "b", "c", "d", "e", "f"]] := by
      simp +decide only [formGroups, scanRuns, gts6]
      norm_num
    refine ⟨["a", "b", "c", "d", "e", "f"], ?_, ?_⟩
    · rw [he]
      exact List.mem_singleton_self _
    · simp +decide only [tsv, gts6, List.getLastI, List.headI]
      norm_num

/-- C1 witness: the grouper properties applied to six items spaced one second
apart under a one second threshold; the single resulting run has at least
five members. -/
theorem run_grouper_properties_witness :
    5 ≤ (formGroups gts6 1 ["a", "b", "c", "d", "e", "f"]).headI.length := by
  have he : formGroups gts6 1 ["a", "b", "c", "d", "e", "f"] =
      [["a", "b", "c", "d", "e", "f"]] := by
    simp +decide only [formGroups, scanRuns, gts6]
    norm_num
  have h := (run_grouper_properties gts6 1 ["a", "b", "c", "d", "e", "f"]
    one_pos (by decide) (by decide) (by decide)).1
  exact h (formGroups gts6 1 ["a", "b", "c", "d", "e", "f"]).headI
    (by rw [he]; exact List.mem_singleton_self _)

/-- Characters with equal code points are equal. -/
theorem char_toNat_inj {a b : Char} (h : a.toNat = b.toNat) : a = b := by
  have h2 := congrArg Char.ofNat h
  rwa [Char.ofNat_toNat, Char.ofNat_toNat] at h2

/-- The code point order on character lists is total. -/
theorem lexLe_total : ∀ x y : List Char, lexLe x y = true ∨ lexLe y x = true := by
  intro x
  induction x with
  | nil => intro y; exact Or.inl rfl
  | cons a as ih =>
    intro y
    cases y with
    | nil => exact Or.inr rfl
    | cons b bs =>
      by_cases hab : a = b
      · rcases ih bs with h | h
        · left
          rw [lexLe, if_pos hab]
          exact h
        · right
          rw [lexLe, if_pos hab.symm]
          exact h
      · have hne : a.toNat ≠ b.toNat := fun hEq => hab (char_toNat_inj hEq)
        rcases Nat.lt_or_ge a.toNat b.toNat with h | h
        · left
          rw [lexLe, if_neg hab]
          exact decide_eq_true h
        · have hlt : b.toNat < a.toNat :=
            lt_of_le_of_ne h (fun e => hne e.symm)
          right
          rw [lexLe, if_neg (fun e => hab e.symm)]
          exact decide_eq_true hlt

/-- The code point order on character lists is transitive. -/
theorem lexLe_trans : ∀ x y z : List Char,
    lexLe x y = true → lexLe y z = true → lexLe x z = true := by
  intro x
  induction x with
  | nil => intro y z _ _; rfl
  | cons a as ih =>
    intro y z h1 h2
    cases y with
    | nil => rw [lexLe] at h1; simp at h1
    | cons b bs =>
      cases z with
      | nil => rw [lexLe] at h2; simp at h2
      | cons c cs =>
        rw [lexLe] at h1 h2 ⊢
        by_cases hab : a = b
        · rw [if_pos hab] at h1
          by_cases hbc : b = c
          · rw [if_pos hbc] at h2
            rw [if_pos (hab.trans hbc)]
            exact ih bs cs h1 h2
          · rw [if_neg hbc] at h2
            have hbc2 : b.toNat < c.toNat := of_decide_eq_true h2
            have hac : ¬a = c := fun e => hbc (hab.symm.trans e)
            rw [if_neg hac]
            refine decide_eq_true ?_
            rw [hab]
            exact hbc2
        · rw [if_neg hab] at h1
          have hab2 : a.toNat < b.toNat := of_decide_eq_true h1
          by_cases hbc : b = c
          · have hac : ¬a = c := fun e => hab (e.trans hbc.symm)
            rw [if_neg hac]
            refine decide_eq_true ?_
            rw [← hbc]
            exact hab2
          · rw [if_neg hbc] at h2
            have hbc2 : b.toNat < c.toNat := of_decide_eq_true h2
            have hlt : a.toNat < c.toNat := lt_trans hab2 hbc2
            have hac : ¬a = c := fun e => lt_irrefl c.toNat (e ▸ hlt)
            rw [if_neg hac]
            exact decide_eq_true hlt

/-- The code point order on character lists is antisymmetric. -/
theorem lexLe_antisymm : ∀ x y : List Char,
    lexLe x y = true → lexLe y x = true → x = y := by
  intro x
  induction x with
  | nil =>
    intro y h1 h2
    cases y with
    | nil => rfl
    | cons b bs => rw [lexLe] at h2; simp at h2
  | cons a as ih =>
    intro y h1 h2
    cases y with
    | nil => rw [lexLe] at h1; simp at h1
    | cons b bs =>
      rw [lexLe] at h1 h2
      by_cases hab : a = b
      · rw [if_pos hab] at h1
        rw [if_pos hab.symm] at h2
        rw [hab, ih bs h1 h2]
      · rw [if_neg hab] at h1
        rw [if_neg (fun e => hab e.symm)] at h2
        exact absurd (of_decide_eq_true h2) (Nat.lt_asymm (of_decide_eq_true h1))

/-- The implemented sort order is total. -/
theorem sortKeyLE_total (getTs : String → Option ℚ) (a b : String) :
    sortKeyLE getTs a b ∨ sortKeyLE getTs b a := by
  rcases lt_trichotomy (tsKey getTs a) (tsKey getTs b) with h | h | h
  · exact Or.inl (Or.inl h)
  · rcases lexLe_total (basename a).data (basename b).data with hl | hl
    · exact Or.inl (Or.inr ⟨h, hl⟩)
    · exact Or.inr (Or.inr ⟨h.symm, hl⟩)
  · exact Or.inr (Or.inl h)

/-- The implemented sort order is transitive. -/
theorem sortKeyLE_trans (getTs : String → Option ℚ) (a b c : String) :
    sortKeyLE getTs a b → sortKeyLE getTs b c → sortKeyLE getTs a c := by
  intro h1 h2
  rcases h1 with h1 | ⟨h1e, h1l⟩
  · rcases h2 with h2 | ⟨h2e, _⟩
    · exact Or.inl (lt_trans h1 h2)
    · exact Or.inl (lt_of_lt_of_le h1 (le_of_eq h2e))
  · rcases h2 with h2 | ⟨h2e, h2l⟩
    · exact Or.inl (lt_of_le_of_lt (le_of_eq h1e) h2)
    · exact Or.inr ⟨h1e.trans h2e, lexLe_trans _ _ _ h1l h2l⟩

/-- Mutually ordered items share the implemented sort key. -/
theorem sortKeyLE_antisymm_key (getTs : String → Option ℚ) (a b : String)
    (h1 : sortKeyLE getTs a b) (h2 : sortKeyLE getTs b a) :
    sortKey getTs a = sortKey getTs b := by
  rcases h1 with h1 | ⟨h1e, h1l⟩
  · rcases h2 with h2 | ⟨h2e, _⟩
    · exact absurd h2 (lt_asymm h1)
    · rw [h2e] at h1
      exact absurd h1 (lt_irrefl _)
  · rcases h2 with h2 | ⟨h2e, h2l⟩
    · rw [h1e] at h2
      exact absurd h2 (lt_irrefl _)
    · unfold sortKey
      rw [h1e, lexLe_antisymm _ _ h1l h2l]

/-- Permutations with pairwise distinct sort keys sort identically. -/
theorem sortImages_eq_of_perm (getTs : String → Option ℚ) (l1 l2 : List String)
    (hperm : l1.Perm l2) (hkeys : (l1.map (sortKey getTs)).Nodup) :
    sortImages getTs l1 = sortImages getTs l2 := by
  letI : IsTotal String (sortKeyLE getTs) := ⟨sortKeyLE_total getTs⟩
  letI : IsTrans String (sortKeyLE getTs) := ⟨sortKeyLE_trans getTs⟩
  letI : IsAntisymm String
      (fun a b => sortKeyLE getTs a b ∧ sortKey getTs a ≠ sortKey getTs b) :=
    ⟨fun a b h1 h2 => absurd (sortKeyLE_antisymm_key getTs a b h1.1 h2.1) h1.2⟩
  have hkeys2 : (l2.map (sortKey getTs)).Nodup :=
    ((hperm.map (sortKey getTs)).nodup_iff).mp hkeys
  have hp : (sortImages getTs l1).Perm (sortImages getTs l2) :=
    ((List.perm_insertionSort (sortKeyLE getTs) l1).trans hperm).trans
      (List.perm_insertionSort (sortKeyLE getTs) l2).symm
  have hst1 : List.Sorted
      (fun a b => sortKeyLE getTs a b ∧ sortKey getTs a ≠ sortKey getTs b)
      (sortImages getTs l1) := by
    have hpw : (sortImages getTs l1).Pairwise (sortKeyLE getTs) :=
      List.sorted_insertionSort (sortKeyLE getTs) l1
    have hk1 : ((sortImages getTs l1).map (sortKey getTs)).Nodup :=
      (((List.perm_insertionSort (sortKeyLE getTs) l1).map
        (sortKey getTs)).nodup_iff).mpr hkeys
    exact hpw.and (List.pairwise_map.mp hk1)
  have hst2 : List.Sorted
      (fun a b => sortKeyLE getTs a b ∧ sortKey getTs a ≠ sortKey getTs b)
      (sortImages getTs l2) := by
    have hpw : (sortImages getTs l2).Pairwise (sortKeyLE getTs) :=
      List.sorted_insertionSort (sortKeyLE getTs) l2
    have hk2 : ((sortImages getTs l2).map (sortKey getTs)).Nodup :=
      (((List.perm_insertionSort (sortKeyLE getTs) l2).map
        (sortKey getTs)).nodup_iff).mpr hkeys2
    exact hpw.and (List.pairwise_map.mp hk2)
  exact List.eq_of_perm_of_sorted hp hst1 hst2

/-- C2 counterexample: two files with equal timestamps whose basename order
and full path order disagree. The implemented sort orders them by basename;
sorting by the full path as the claim states gives the opposite order. -/
theorem sort_key_counterexample :
    sortImages gts0 ["b/a.jpg", "a/b.jpg"] = ["b/a.jpg", "a/b.jpg"] ∧
    sortImagesSpec gts0 ["b/a.jpg", "a/b.jpg"] = ["a/b.jpg", "b/a.jpg"] ∧
    sortImages gts0 ["b/a.jpg", "a/b.jpg"] ≠
      sortImagesSpec gts0 ["b/a.jpg", "a/b.jpg"] := by
  refine ⟨by decide, by decide, by decide⟩

/-- C2 amended: the sort key is the timestamp with the basename of the path,
not the full path, as tie break; the grouper is a deterministic function of
its input list; and whenever the keys are pairwise distinct, any permutation
of the input sorts to the same order and yields the same partition into
runs. With duplicate keys the stable sort preserves input order, so two
differently ordered inputs with equal key multisets may differ. -/
theorem grouper_deterministic (getTs : String → Option ℚ) (t : ℚ)
    (l1 l2 : List String) (hperm : l1.Perm l2)
    (hkeys : (l1.map (sortKey getTs)).Nodup) :
    sortImages getTs l1 = sortImages getTs l2 ∧
    groupPipeline getTs t l1 = groupPipeline getTs t l2 := by
  have h := sortImages_eq_of_perm getTs l1 l2 hperm hkeys
  refine ⟨h, ?_⟩
  unfold groupPipeline
  rw [h]

/-- C2 witness: two permutations of the same two files with distinct keys
sort and group identically. -/
theorem grouper_deterministic_witness :
    sortImages gts0 ["b", "a"] = sortImages gts0 ["a", "b"] ∧
    groupPipeline gts0 1 ["b", "a"] = groupPipeline gts0 1 ["a", "b"] :=
  grouper_deterministic gts0 1 ["b", "a"] ["a", "b"] (by decide) (by decide)

end ImgSetSortr
